import Mathlib

/-!
Verification of the Game of Life core (marshallsa/game-of-life).

This file embeds, as Lean definitions, the components of the repository that
the verified properties are about:

* `Cell` and `Cell.next` — the cell value and the birth/survival rule
  (src/unnamed/part_018; identical logic to src/src/cell.js, whose field is
  named `isAlive` and which is embedded separately as `Modern.Cell`).
* `Board` — the incremental active/stable simulation engine
  (src/unnamed/part_010): two maps from coordinates to cells, with `get`,
  `set`, `add`, `clear`, `step` and the live-cell view.
* `Naive.step` — the whole-live-set simulation (the `Board` of
  src/unnamed/part_009, third chunk): one map of live cells, each step
  recomputing every live cell and every neighbor of a live cell.
* `Pattern` — the cell-list pattern of src/src/pattern.js with `width`,
  `height`, `rotate`, and the constructor's aliveness filter.
* `Timeline` — the persistent undo/redo history of src/src/timeline.js,
  parametrized by the pattern type (the timeline reads only `pattern.empty`
  and `pattern.next()` from its patterns).

JavaScript `Map<string, Cell>` values keyed by `row + "," + column` are
embedded as a finite key set (`Finset Coord`) plus a valuation
`Coord → Bool` giving the aliveness of the stored cell; the key function is
injective on integer coordinates and every stored cell's row/column equal
its key, so the aliveness is the only per-key data.
-/

/-- Integer board coordinates `(row, column)`. -/
abbrev Coord : Type := Int × Int

/-- The 8 neighbor coordinates of a cell, in the order produced by the
`_neighbors` double loop (`i` from `row-1` to `row+1`, `j` from `column-1`
to `column+1`, skipping the center). -/
def neighborsOf (k : Coord) : List Coord :=
  [(k.1 - 1, k.2 - 1), (k.1 - 1, k.2), (k.1 - 1, k.2 + 1),
   (k.1, k.2 - 1), (k.1, k.2 + 1),
   (k.1 + 1, k.2 - 1), (k.1 + 1, k.2), (k.1 + 1, k.2 + 1)]

/-- A single cell, as in src/unnamed/part_018: row, column and an `alive`
flag. The boards of part_009 and part_010 and the pattern of
src/src/pattern.js read exactly these three properties. -/
structure Cell where
  row : Int
  column : Int
  alive : Bool
deriving DecidableEq, Repr

/-- The next state of a cell given its number of live neighbors
(src/unnamed/part_018 `Cell.next`, lines 53-61): a live cell dies below 2 or
above 3 live neighbors, a dead cell is born on exactly 3, otherwise the cell
is returned unchanged. -/
def Cell.next (c : Cell) (numLiveNeighbors : Nat) : Cell :=
  if c.alive ∧ (numLiveNeighbors < 2 ∨ numLiveNeighbors > 3) then
    ⟨c.row, c.column, false⟩
  else if ¬c.alive ∧ numLiveNeighbors = 3 then
    ⟨c.row, c.column, true⟩
  else
    c

namespace Modern

/-- The cell of src/src/cell.js: the aliveness accessor is named `isAlive`
(the class declares getters `row`, `column` and `isAlive` only). -/
structure Cell where
  row : Int
  column : Int
  isAlive : Bool
deriving DecidableEq, Repr

/-- JavaScript property access `cell.alive` on the src/src/cell.js cell:
the class declares no property or getter named `alive`, so the access
yields `undefined` (`none`). -/
def Cell.aliveProp (_ : Cell) : Option Bool := none

/-- Truthiness of a possibly-undefined JavaScript boolean: `undefined` is
falsy. -/
def truthy : Option Bool → Bool
  | none => false
  | some b => b

/-- The next state of a cell (src/src/cell.js `Cell.next`, lines 68-76);
same rule as `Cell.next` above, phrased on the `isAlive` field. -/
def Cell.next (c : Cell) (liveNeighbors : Nat) : Cell :=
  if c.isAlive ∧ (liveNeighbors < 2 ∨ liveNeighbors > 3) then
    ⟨c.row, c.column, false⟩
  else if ¬c.isAlive ∧ liveNeighbors = 3 then
    ⟨c.row, c.column, true⟩
  else
    c

end Modern

/-- The aliveness component of `Cell.next` as a function of the receiver's
aliveness and the live-neighbor count alone (the rule never reads the
coordinates). -/
def nextAlive (a : Bool) (n : Nat) : Bool :=
  (Cell.next ⟨0, 0, a⟩ n).alive

/-- The incremental board of src/unnamed/part_010: a map of active cells
(alive or dead, may change next step) and a map of stable cells (ignored by
the simulation). Each JavaScript map is embedded as its key set plus the
aliveness of the stored cell at each key (values off the key set are
irrelevant junk). -/
structure Board where
  activeDom : Finset Coord
  activeVal : Coord → Bool
  stableDom : Finset Coord
  stableVal : Coord → Bool

namespace Board

/-- The aliveness of the cell returned by `Board.get` (part_010, lines
30-39): the active map is consulted first, then the stable map, and a
coordinate in neither map is a dead cell. -/
def get (b : Board) (k : Coord) : Bool :=
  if k ∈ b.activeDom then b.activeVal k
  else if k ∈ b.stableDom then b.stableVal k
  else false

/-- The number of live neighbors of the cell at `k`:
`this._neighbors(cell).filter(neighbor => neighbor.alive).length`. -/
def liveCount (b : Board) (k : Coord) : Nat :=
  (neighborsOf k).countP (fun j => b.get j)

/-- The aliveness computed for an active cell in the first loop of
`Board.step`: `cell.next(liveNeighborCount).alive`, where `cell` is the
stored active cell. During that loop only the stable map is mutated, and
only at keys of the (old) active map with their current aliveness, so every
`this.get` inside it reads the pre-step state. -/
def nxt (b : Board) (k : Coord) : Bool :=
  (Cell.next ⟨k.1, k.2, b.activeVal k⟩ (b.liveCount k)).alive

/-- The active cells whose state changes in this step; these form the next
active map after the first loop of `Board.step`. -/
def changed (b : Board) : Finset Coord :=
  b.activeDom.filter (fun k => b.nxt k ≠ b.activeVal k)

/-- The active cells that stay alive unchanged; the first loop of
`Board.step` moves them into the stable map. -/
def stayedAlive (b : Board) : Finset Coord :=
  b.activeDom.filter (fun k => b.nxt k = b.activeVal k ∧ b.nxt k = true)

/-- The neighbors of the cells that changed state; the second loop of
`Board.step` re-activates exactly these coordinates. -/
def nbhd (b : Board) : Finset Coord :=
  b.changed.biUnion (fun k => (neighborsOf k).toFinset)

/-- One step of the incremental engine (part_010 `Board.step`, lines
88-108). First loop: every active cell is advanced; changed cells form the
new active map, unchanged live cells move to the stable map, unchanged dead
cells are dropped. Second loop: every neighbor of a changed cell is written
into the active map with its current (`this.get`) aliveness and deleted
from the stable map. Writing a key with its current `get` value and erasing
it from the stable map never alters any later `get`, so the loop's final
maps are order-independent and are given here as set operations. -/
def step (b : Board) : Board where
  activeDom := b.changed ∪ b.nbhd
  activeVal := fun d =>
    if d ∈ b.changed then b.nxt d
    else if d ∈ b.stableDom ∪ b.stayedAlive then
      (if d ∈ b.stayedAlive then true else b.stableVal d)
    else false
  stableDom := (b.stableDom ∪ b.stayedAlive) \ b.nbhd
  stableVal := fun d => if d ∈ b.stayedAlive then true else b.stableVal d

/-- Sets the aliveness of one cell (part_010 `Board.set`, lines 48-62).
Nothing happens when the new state equals the current one; otherwise the
cell is written into the active map and removed from the stable map, and
each of its 8 neighbors is written into the active map with its current
`get` aliveness and removed from the stable map (the neighbor keys are
pairwise distinct and distinct from the cell, so each neighbor's `get`
reads the original maps). -/
def set (b : Board) (row column : Int) (alive : Bool) : Board :=
  if alive = b.get (row, column) then b
  else
    { activeDom := insert (row, column) b.activeDom ∪
        (neighborsOf (row, column)).toFinset
      activeVal := fun d =>
        if d = (row, column) then alive
        else if d ∈ (neighborsOf (row, column)).toFinset then b.get d
        else b.activeVal d
      stableDom := (b.stableDom.erase (row, column)) \
        (neighborsOf (row, column)).toFinset
      stableVal := b.stableVal }

/-- Adds a pattern's cells to the board (part_010 `Board.add`, lines
69-75): each alive cell of the pattern is `set` alive, in iteration
order. -/
def add (b : Board) (cells : List Cell) : Board :=
  cells.foldl (fun acc cell =>
    if cell.alive then acc.set cell.row cell.column true else acc) b

/-- The board constructed by `new Board()`: both maps empty. -/
def empty : Board where
  activeDom := ∅
  activeVal := fun _ => false
  stableDom := ∅
  stableVal := fun _ => false

/-- Removes all cells (part_010 `Board.clear`, lines 80-83). -/
def clear (_ : Board) : Board := empty

/-- The set of coordinates yielded by the `liveCells()` generator (part_010
lines 115-125): the alive cells of the active map followed by every cell of
the stable map. -/
def liveCells (b : Board) : Finset Coord :=
  b.activeDom.filter (fun k => b.activeVal k = true) ∪ b.stableDom

/-- The board states reachable through the part_010 API from a fresh
board. -/
inductive Reachable : Board → Prop
  | empty : Reachable Board.empty
  | set (b : Board) (row column : Int) (alive : Bool) :
      Reachable b → Reachable (b.set row column alive)
  | add (b : Board) (cells : List Cell) :
      Reachable b → Reachable (b.add cells)
  | step (b : Board) : Reachable b → Reachable b.step
  | clear (b : Board) : Reachable b → Reachable b.clear

/-- The representation invariant of the engine, together with the semantic
fact making the active/stable split sound: the two key sets are disjoint,
stable cells are alive, and any coordinate outside the active map already
has its next-generation aliveness. -/
def Inv (b : Board) : Prop :=
  b.activeDom ∩ b.stableDom = ∅
  ∧ (∀ c ∈ b.stableDom, b.stableVal c = true)
  ∧ (∀ c : Coord, c ∉ b.activeDom → nextAlive (b.get c) (b.liveCount c) = b.get c)

end Board

namespace Naive

/-- The number of live neighbors of `k` on a plain live-cell set (the
`_numLiveNeighbors` of the part_009 board). -/
def liveCountOn (L : Finset Coord) (k : Coord) : Nat :=
  (neighborsOf k).countP (fun j => decide (j ∈ L))

/-- One step of the naive whole-live-set board (src/unnamed/part_009, third
chunk, `Board.step`, lines 318-337). The map `_liveCells` holds only alive
cells (every insertion is alive and dead results are deleted), so it is
embedded as its key set. The step writes `cell.next(count)` for every live
cell and every neighbor of a live cell — each value a pure function of the
pre-state, so repeated writes agree — and then deletes the dead results. -/
def step (L : Finset Coord) : Finset Coord :=
  (L ∪ L.biUnion (fun k => (neighborsOf k).toFinset)).filter
    (fun c => (Cell.next ⟨c.1, c.2, decide (c ∈ L)⟩ (liveCountOn L c)).alive = true)

end Naive

/-- The rotation directions enum of src/src/pattern.js. -/
inductive Rotation
  | CLOCKWISE
  | COUNTERCLOCKWISE
deriving DecidableEq, Repr

/-- The pattern of src/src/pattern.js: a list of live cells. The field
mirrors `_liveCells`; the class is paired here with the `Cell` whose
aliveness accessor is `alive` (the cell revision the class's
`cell => cell.alive` reads were written against — the pairing with the
`isAlive` cell of src/src/cell.js is embedded separately below). -/
structure Pattern where
  _liveCells : List Cell
deriving DecidableEq, Repr

namespace Pattern

/-- The constructor `new Pattern(cells)` (src/src/pattern.js lines 28-30):
it keeps the cells whose `alive` property is truthy. -/
def ofCells (cells : List Cell) : Pattern :=
  ⟨cells.filter (fun cell => cell.alive)⟩

/-- The `width` getter (src/src/pattern.js lines 38-44): 0 when there are
no live cells, otherwise `Math.max(...columns) - Math.min(...columns) + 1`.
`jsMax`/`jsMin` below spell out the spread over a non-empty list. -/
def jsMax : List Int → Int
  | [] => 0
  | x :: xs => xs.foldl max x

/-- Minimum of a non-empty integer list, as `Math.min(...list)`. -/
def jsMin : List Int → Int
  | [] => 0
  | x :: xs => xs.foldl min x

/-- The `width` getter of src/src/pattern.js (lines 38-44). -/
def width (p : Pattern) : Int :=
  if p._liveCells.length = 0 then 0
  else
    jsMax (p._liveCells.map (fun cell => cell.column)) -
      jsMin (p._liveCells.map (fun cell => cell.column)) + 1

/-- The `height` getter of src/src/pattern.js (lines 52-58). -/
def height (p : Pattern) : Int :=
  if p._liveCells.length = 0 then 0
  else
    jsMax (p._liveCells.map (fun cell => cell.row)) -
      jsMin (p._liveCells.map (fun cell => cell.row)) + 1

/-- The `rotate` method of src/src/pattern.js (lines 88-99): every live
cell is mapped through the 90-degree rotation about the pivot and the
result is passed to the constructor. -/
def rotate (p : Pattern) (direction : Rotation) (pivotRow pivotColumn : Int) :
    Pattern :=
  let sign : Int := if direction = Rotation.CLOCKWISE then 1 else -1
  ofCells (p._liveCells.map (fun cell =>
    ⟨pivotRow + sign * (cell.column - pivotColumn),
     pivotColumn - sign * (cell.row - pivotRow),
     cell.alive⟩))

end Pattern

/-- The JavaScript number values that the earlier revision's width/height
arithmetic can produce: an integer, one of the two infinities
(`Math.max()`/`Math.min()` over an empty spread), or `NaN`. Addition and
subtraction below follow IEEE semantics exactly on these values — integer
arithmetic is exact in this range, `±Infinity` absorbs finite operands,
and opposing infinities give `NaN`. -/
inductive JsNum where
  | nan
  | negInf
  | posInf
  | int (n : Int)
deriving DecidableEq, Repr

/-- JavaScript addition restricted to `JsNum` values. -/
def JsNum.add : JsNum → JsNum → JsNum
  | JsNum.nan, _ => JsNum.nan
  | _, JsNum.nan => JsNum.nan
  | JsNum.negInf, JsNum.posInf => JsNum.nan
  | JsNum.posInf, JsNum.negInf => JsNum.nan
  | JsNum.negInf, _ => JsNum.negInf
  | _, JsNum.negInf => JsNum.negInf
  | JsNum.posInf, _ => JsNum.posInf
  | _, JsNum.posInf => JsNum.posInf
  | JsNum.int a, JsNum.int b => JsNum.int (a + b)

/-- JavaScript subtraction restricted to `JsNum` values. -/
def JsNum.sub : JsNum → JsNum → JsNum
  | JsNum.nan, _ => JsNum.nan
  | _, JsNum.nan => JsNum.nan
  | JsNum.negInf, JsNum.negInf => JsNum.nan
  | JsNum.posInf, JsNum.posInf => JsNum.nan
  | JsNum.negInf, _ => JsNum.negInf
  | JsNum.posInf, _ => JsNum.posInf
  | JsNum.int _, JsNum.negInf => JsNum.posInf
  | JsNum.int _, JsNum.posInf => JsNum.negInf
  | JsNum.int a, JsNum.int b => JsNum.int (a - b)

/-- The value of `Math.max(...list)` over a list of integers: `-Infinity`
on the empty spread, otherwise the maximum. -/
def jsMaxSpread : List Int → JsNum
  | [] => JsNum.negInf
  | x :: xs => JsNum.int (xs.foldl max x)

/-- The value of `Math.min(...list)` over a list of integers: `Infinity`
on the empty spread, otherwise the minimum. -/
def jsMinSpread : List Int → JsNum
  | [] => JsNum.posInf
  | x :: xs => JsNum.int (xs.foldl min x)

/-- The `width` getter of the earlier src/src/pattern.js revision (lines
321-324, second chunk): `Math.max(...columns) - Math.min(...columns) + 1`
with no empty-pattern guard, so the empty spread produces infinities. -/
def Pattern.widthEarlier (p : Pattern) : JsNum :=
  JsNum.add
    (JsNum.sub (jsMaxSpread (p._liveCells.map (fun cell => cell.column)))
      (jsMinSpread (p._liveCells.map (fun cell => cell.column))))
    (JsNum.int 1)

/-- The `height` getter of the earlier src/src/pattern.js revision (lines
332-335, second chunk), likewise unguarded. -/
def Pattern.heightEarlier (p : Pattern) : JsNum :=
  JsNum.add
    (JsNum.sub (jsMaxSpread (p._liveCells.map (fun cell => cell.row)))
      (jsMinSpread (p._liveCells.map (fun cell => cell.row))))
    (JsNum.int 1)

namespace Modern

/-- The pattern of src/src/pattern.js as it stands next to the
src/src/cell.js cell, whose aliveness accessor is `isAlive`: the
constructor's filter still reads `cell.alive`, which on that cell class is
the undefined property `aliveProp`. -/
structure Pattern where
  _liveCells : List Cell
deriving DecidableEq, Repr

/-- The constructor `new Pattern(cells)` (src/src/pattern.js lines 28-30)
applied to src/src/cell.js cells: `cells.filter(cell => cell.alive)` keeps
the cells whose (undefined) `alive` property is truthy. -/
def Pattern.ofCells (cells : List Cell) : Pattern :=
  ⟨cells.filter (fun cell => truthy cell.aliveProp)⟩

/-- The `[Symbol.iterator]` of src/src/pattern.js (lines 106-108): the
pattern yields exactly its `_liveCells`. -/
def Pattern.iterated (p : Pattern) : List Cell :=
  p._liveCells

end Modern

/-- The timeline of src/src/timeline.js, an immutable linked history. The
`?Node` chains (`_past`, `_future`) are embedded as lists of
(pattern, generation) pairs, most recent first; `null` is the empty list.
The timeline reads nothing of its patterns except the `empty` getter and
the `next()` method, so it is parametrized by the pattern type and those
two operations are passed to `Timeline.next` explicitly. -/
structure Timeline (P : Type) where
  pattern : P
  generation : Int
  past : List (P × Int)
  future : List (P × Int)
deriving DecidableEq, Repr

namespace Timeline

/-- A timeline created by `new Timeline()`: generation 0, no past and no
future, and the default present pattern (`new Pattern()`, the empty
pattern, here an arbitrary designated value `p0`). -/
def fresh {P : Type} (p0 : P) : Timeline P :=
  ⟨p0, 0, [], []⟩

/-- The `with` method (src/src/timeline.js lines 60-65): a new timeline
whose present is the given pattern at the default generation 0, whose past
gains the old present, and whose future is the default `null`. -/
def with' {P : Type} (t : Timeline P) (pattern : P) : Timeline P :=
  ⟨pattern, 0, (t.pattern, t.generation) :: t.past, []⟩

/-- The `next` method (src/src/timeline.js lines 72-91): a no-op on an
empty present with no future; otherwise either computes
`this._pattern.next()` at generation + 1, or moves into the recorded
future entry, pushing the old present onto the past. -/
def next {P : Type} (pnext : P → P) (pempty : P → Bool) (t : Timeline P) :
    Timeline P :=
  match t.future with
  | [] =>
      if pempty t.pattern then t
      else
        ⟨pnext t.pattern, t.generation + 1,
         (t.pattern, t.generation) :: t.past, []⟩
  | (fpattern, fgeneration) :: frest =>
      ⟨fpattern, fgeneration, (t.pattern, t.generation) :: t.past, frest⟩

/-- The `hasPrevious` method (src/src/timeline.js lines 117-119):
`this._past !== null`. -/
def hasPrevious {P : Type} (t : Timeline P) : Bool :=
  !t.past.isEmpty

/-- The `previous` method (src/src/timeline.js lines 98-109): throws when
`hasPrevious()` is false, otherwise moves the present back into the first
past entry, restoring its generation, and pushes the old present onto the
future. -/
def previous {P : Type} (t : Timeline P) : Except String (Timeline P) :=
  match t.past with
  | [] => Except.error "No previous pattern"
  | (ppattern, pgeneration) :: prest =>
      Except.ok ⟨ppattern, pgeneration,
        prest, (t.pattern, t.generation) :: t.future⟩

end Timeline

/-- Modelled from the spec: the immutable `Pattern` consumed by
src/src/timeline.js (its `empty` getter and `next()` method are not among
the provided sources — only the `Pattern` revisions without them are). Per
spec section 4.2, `next()` advances the live-cell set one generation,
observably equal to the naive whole-plane recomputation, and `isEmpty` is
true iff `liveCells()` yields nothing; the pattern is represented by its
live-cell set. -/
abbrev PatternS : Type := Finset Coord

/-- Modelled from the spec: the `empty` getter — no live cells. -/
def PatternS.empty (p : PatternS) : Bool :=
  decide (p = (∅ : Finset Coord))

/-- Modelled from the spec: `next()` steps the live-cell set one
generation; the naive step of part_009 is exactly the spec's required
observable behavior. -/
def PatternS.next (p : PatternS) : PatternS :=
  Naive.step p

section NeighborLemmas

theorem mem_neighborsOf_iff {j k : Coord} :
    j ∈ neighborsOf k ↔
      j ≠ k ∧ k.1 - 1 ≤ j.1 ∧ j.1 ≤ k.1 + 1 ∧ k.2 - 1 ≤ j.2 ∧ j.2 ≤ k.2 + 1 := by
  cases j with
  | mk a b =>
    cases k with
    | mk x y =>
      simp only [neighborsOf, List.mem_cons, List.mem_singleton, Prod.mk.injEq,
        ne_eq, List.not_mem_nil, or_false]
      omega

theorem mem_neighborsOf_comm {j k : Coord} :
    j ∈ neighborsOf k ↔ k ∈ neighborsOf j := by
  simp only [mem_neighborsOf_iff]
  constructor <;> rintro ⟨h1, h⟩ <;>
    exact ⟨fun he => h1 he.symm, by omega, by omega, by omega, by omega⟩

theorem self_not_mem_neighborsOf (k : Coord) : k ∉ neighborsOf k := by
  simp [mem_neighborsOf_iff]

end NeighborLemmas

section CellLemmas

theorem cellNext_alive (r c : Int) (a : Bool) (n : Nat) :
    (Cell.next ⟨r, c, a⟩ n).alive = nextAlive a n := by
  simp only [Cell.next, nextAlive]
  split_ifs <;> rfl

theorem nextAlive_true_iff (a : Bool) (n : Nat) :
    nextAlive a n = true ↔ (if a = true then n = 2 ∨ n = 3 else n = 3) := by
  cases a <;> simp only [nextAlive, Cell.next] <;> split_ifs <;>
    simp_all <;> omega

theorem nextAlive_false_zero : nextAlive false 0 = false := by
  decide

end CellLemmas

/-- C2: for both alive states and every live-neighbor count from 0 to 8,
`Cell.next` (src/src/cell.js lines 68-76, and identically
src/unnamed/part_018 lines 53-61) returns the canonical Game of Life
table: an alive cell stays alive exactly on 2 or 3 live neighbors, a dead
cell becomes alive exactly on 3; the coordinates are preserved and the
result's aliveness depends only on the receiver's aliveness and the
count. -/
theorem cell_next_canonical_table (a : Bool) (n : Nat) (hn : n ≤ 8) (r c : Int) :
    ((Modern.Cell.next ⟨r, c, a⟩ n).isAlive = true ↔
      (if a = true then n = 2 ∨ n = 3 else n = 3))
    ∧ (Cell.next ⟨r, c, a⟩ n).alive = (Modern.Cell.next ⟨r, c, a⟩ n).isAlive
    ∧ (Modern.Cell.next ⟨r, c, a⟩ n).row = r
    ∧ (Modern.Cell.next ⟨r, c, a⟩ n).column = c
    ∧ (∀ r' c' : Int,
        (Modern.Cell.next ⟨r', c', a⟩ n).isAlive =
          (Modern.Cell.next ⟨r, c, a⟩ n).isAlive) := by
  refine ⟨?_, ?_, ?_, ?_, ?_⟩ <;>
    cases a <;>
      simp only [Modern.Cell.next, Cell.next] <;>
        split_ifs <;> simp_all <;> omega

/-- Witness for `cell_next_canonical_table` at a dead cell with 3 live
neighbors. -/
theorem cell_next_canonical_table_witness :
    (Modern.Cell.next ⟨5, 7, false⟩ 3).isAlive = true :=
  (cell_next_canonical_table false 3 (by decide) 5 7).1.mpr (by decide)

/-- C10 (code bug witness): the src/src/pattern.js constructor filters with
`cell.alive`, but the src/src/cell.js cell exposes its aliveness only as
`isAlive`, so the filter reads `undefined` and drops every cell — iterating
the pattern built from a single alive cell yields nothing instead of that
cell. -/
theorem pattern_iterator_drops_alive_cell :
    (Modern.Pattern.ofCells [⟨0, 0, true⟩]).iterated = [] ∧
      (∀ cells : List Modern.Cell, (Modern.Pattern.ofCells cells).iterated = []) := by
  refine ⟨rfl, fun cells => ?_⟩
  simp [Modern.Pattern.ofCells, Modern.Pattern.iterated, Modern.truthy,
    Modern.Cell.aliveProp]

section FoldMaxLemmas

theorem foldl_max_seed_le (xs : List Int) (x : Int) : x ≤ xs.foldl max x := by
  induction xs generalizing x with
  | nil => exact le_refl x
  | cons y ys ih => exact le_trans (le_max_left x y) (ih (max x y))

theorem le_foldl_max_of_mem {xs : List Int} {y : Int} (x : Int) (h : y ∈ xs) :
    y ≤ xs.foldl max x := by
  induction xs generalizing x with
  | nil => cases h
  | cons z zs ih =>
    rcases List.mem_cons.mp h with hz | hz
    · subst hz
      exact le_trans (le_max_right x y) (foldl_max_seed_le zs (max x y))
    · exact ih (max x z) hz

theorem foldl_max_mem (xs : List Int) (x : Int) :
    xs.foldl max x = x ∨ xs.foldl max x ∈ xs := by
  induction xs generalizing x with
  | nil => exact Or.inl rfl
  | cons y ys ih =>
    rcases ih (max x y) with h | h
    · rcases max_choice x y with hm | hm
      · exact Or.inl (by rw [List.foldl_cons, h, hm])
      · exact Or.inr (by rw [List.foldl_cons, h, hm]; exact List.mem_cons_self y ys)
    · exact Or.inr (List.mem_cons_of_mem y h)

theorem le_foldl_min_seed (xs : List Int) (x : Int) : xs.foldl min x ≤ x := by
  induction xs generalizing x with
  | nil => exact le_refl x
  | cons y ys ih => exact le_trans (ih (min x y)) (min_le_left x y)

theorem foldl_min_le_of_mem {xs : List Int} {y : Int} (x : Int) (h : y ∈ xs) :
    xs.foldl min x ≤ y := by
  induction xs generalizing x with
  | nil => cases h
  | cons z zs ih =>
    rcases List.mem_cons.mp h with hz | hz
    · subst hz
      exact le_trans (le_foldl_min_seed zs (min x y)) (min_le_right x y)
    · exact ih (min x z) hz

theorem foldl_min_mem (xs : List Int) (x : Int) :
    xs.foldl min x = x ∨ xs.foldl min x ∈ xs := by
  induction xs generalizing x with
  | nil => exact Or.inl rfl
  | cons y ys ih =>
    rcases ih (min x y) with h | h
    · rcases min_choice x y with hm | hm
      · exact Or.inl (by rw [List.foldl_cons, h, hm])
      · exact Or.inr (by rw [List.foldl_cons, h, hm]; exact List.mem_cons_self y ys)
    · exact Or.inr (List.mem_cons_of_mem y h)

theorem jsMax_is_ub {xs : List Int} {y : Int} (h : y ∈ xs) : y ≤ Pattern.jsMax xs := by
  cases xs with
  | nil => cases h
  | cons x rest =>
    rcases List.mem_cons.mp h with hz | hz
    · exact hz ▸ foldl_max_seed_le rest x
    · exact le_foldl_max_of_mem x hz

theorem jsMax_mem {xs : List Int} (h : xs ≠ []) : Pattern.jsMax xs ∈ xs := by
  cases xs with
  | nil => exact absurd rfl h
  | cons x rest =>
    rcases foldl_max_mem rest x with he | he
    · rw [Pattern.jsMax, he]
      exact List.mem_cons_self x rest
    · rw [Pattern.jsMax]
      exact List.mem_cons_of_mem x he

theorem jsMin_is_lb {xs : List Int} {y : Int} (h : y ∈ xs) : Pattern.jsMin xs ≤ y := by
  cases xs with
  | nil => cases h
  | cons x rest =>
    rcases List.mem_cons.mp h with hz | hz
    · exact hz ▸ le_foldl_min_seed rest x
    · exact foldl_min_le_of_mem x hz

theorem jsMin_mem {xs : List Int} (h : xs ≠ []) : Pattern.jsMin xs ∈ xs := by
  cases xs with
  | nil => exact absurd rfl h
  | cons x rest =>
    rcases foldl_min_mem rest x with he | he
    · rw [Pattern.jsMin, he]
      exact List.mem_cons_self x rest
    · rw [Pattern.jsMin]
      exact List.mem_cons_of_mem x he

theorem jsMaxSpread_of_ne_nil {xs : List Int} (h : xs ≠ []) :
    jsMaxSpread xs = JsNum.int (Pattern.jsMax xs) := by
  cases xs with
  | nil => exact absurd rfl h
  | cons x rest => rfl

theorem jsMinSpread_of_ne_nil {xs : List Int} (h : xs ≠ []) :
    jsMinSpread xs = JsNum.int (Pattern.jsMin xs) := by
  cases xs with
  | nil => exact absurd rfl h
  | cons x rest => rfl

end FoldMaxLemmas

/-- C8 (counterexample): in the earlier revision of src/src/pattern.js
(lines 321-335, second chunk), `width` and `height` have no empty-pattern
guard, so on a pattern with no live cells `Math.max()`/`Math.min()` over
the empty spreads give `-Infinity`/`Infinity` and both getters evaluate to
`-Infinity` — an infinite value, not 0 — refuting the claim as stated for
that cited revision. -/
theorem pattern_width_earlier_empty_counterexample :
    (Pattern.ofCells []).widthEarlier = JsNum.negInf
    ∧ (Pattern.ofCells []).heightEarlier = JsNum.negInf
    ∧ ¬ (Pattern.ofCells []).widthEarlier = JsNum.int 0
    ∧ ¬ (Pattern.ofCells []).heightEarlier = JsNum.int 0 :=
  ⟨rfl, rfl, by decide, by decide⟩

/-- C8 (amended): in the guarded current revision of src/src/pattern.js
(lines 38-58) a pattern with no live cells has width and height 0, while
the unguarded earlier revision (lines 321-335) yields `-Infinity` for
both; a pattern with at least one live cell has, in both revisions, width
equal to the maximum live-cell column minus the minimum live-cell column
plus 1, and height likewise over rows (witnessed by explicit extremal
live cells). -/
theorem pattern_width_height_bounds (p : Pattern) :
    (p._liveCells = [] → p.width = 0 ∧ p.height = 0
      ∧ p.widthEarlier = JsNum.negInf ∧ p.heightEarlier = JsNum.negInf)
    ∧ (p._liveCells ≠ [] →
        ∃ chi clo rhi rlo : Int,
          (∀ cell ∈ p._liveCells,
            clo ≤ cell.column ∧ cell.column ≤ chi ∧
            rlo ≤ cell.row ∧ cell.row ≤ rhi)
          ∧ (∃ cell ∈ p._liveCells, cell.column = chi)
          ∧ (∃ cell ∈ p._liveCells, cell.column = clo)
          ∧ (∃ cell ∈ p._liveCells, cell.row = rhi)
          ∧ (∃ cell ∈ p._liveCells, cell.row = rlo)
          ∧ p.width = chi - clo + 1 ∧ p.height = rhi - rlo + 1
          ∧ p.widthEarlier = JsNum.int (chi - clo + 1)
          ∧ p.heightEarlier = JsNum.int (rhi - rlo + 1)) := by
  constructor
  · intro h
    simp [Pattern.width, Pattern.height, Pattern.widthEarlier,
      Pattern.heightEarlier, jsMaxSpread, jsMinSpread, JsNum.sub, JsNum.add, h]
  · intro h
    have hcols : p._liveCells.map (fun cell => cell.column) ≠ [] := by
      simpa using h
    have hrows : p._liveCells.map (fun cell => cell.row) ≠ [] := by
      simpa using h
    have hlen : ¬ p._liveCells.length = 0 := by
      simpa [List.length_eq_zero] using h
    refine ⟨Pattern.jsMax (p._liveCells.map (fun cell => cell.column)),
      Pattern.jsMin (p._liveCells.map (fun cell => cell.column)),
      Pattern.jsMax (p._liveCells.map (fun cell => cell.row)),
      Pattern.jsMin (p._liveCells.map (fun cell => cell.row)),
      ?_, ?_, ?_, ?_, ?_, ?_, ?_, ?_, ?_⟩
    · intro cell hc
      refine ⟨jsMin_is_lb ?_, jsMax_is_ub ?_, jsMin_is_lb ?_, jsMax_is_ub ?_⟩ <;>
        exact List.mem_map_of_mem _ hc
    · simpa [List.mem_map, eq_comm] using jsMax_mem hcols
    · simpa [List.mem_map, eq_comm] using jsMin_mem hcols
    · simpa [List.mem_map, eq_comm] using jsMax_mem hrows
    · simpa [List.mem_map, eq_comm] using jsMin_mem hrows
    · simp [Pattern.width, hlen]
    · simp [Pattern.height, hlen]
    · rw [Pattern.widthEarlier, jsMaxSpread_of_ne_nil hcols,
        jsMinSpread_of_ne_nil hcols]
      rfl
    · rw [Pattern.heightEarlier, jsMaxSpread_of_ne_nil hrows,
        jsMinSpread_of_ne_nil hrows]
      rfl

/-- Witness for `pattern_width_height_bounds` at the empty pattern and at a
two-cell pattern. -/
theorem pattern_width_height_bounds_witness :
    ((Pattern.ofCells []).width = 0 ∧ (Pattern.ofCells []).height = 0
      ∧ (Pattern.ofCells []).widthEarlier = JsNum.negInf
      ∧ (Pattern.ofCells []).heightEarlier = JsNum.negInf) ∧
    (∃ chi clo rhi rlo : Int,
      (∀ cell ∈ (Pattern.ofCells [⟨0, 2, true⟩, ⟨4, 9, true⟩])._liveCells,
        clo ≤ cell.column ∧ cell.column ≤ chi ∧
        rlo ≤ cell.row ∧ cell.row ≤ rhi)
      ∧ (∃ cell ∈ (Pattern.ofCells [⟨0, 2, true⟩, ⟨4, 9, true⟩])._liveCells,
          cell.column = chi)
      ∧ (∃ cell ∈ (Pattern.ofCells [⟨0, 2, true⟩, ⟨4, 9, true⟩])._liveCells,
          cell.column = clo)
      ∧ (∃ cell ∈ (Pattern.ofCells [⟨0, 2, true⟩, ⟨4, 9, true⟩])._liveCells,
          cell.row = rhi)
      ∧ (∃ cell ∈ (Pattern.ofCells [⟨0, 2, true⟩, ⟨4, 9, true⟩])._liveCells,
          cell.row = rlo)
      ∧ (Pattern.ofCells [⟨0, 2, true⟩, ⟨4, 9, true⟩]).width = chi - clo + 1
      ∧ (Pattern.ofCells [⟨0, 2, true⟩, ⟨4, 9, true⟩]).height = rhi - rlo + 1
      ∧ (Pattern.ofCells [⟨0, 2, true⟩, ⟨4, 9, true⟩]).widthEarlier =
          JsNum.int (chi - clo + 1)
      ∧ (Pattern.ofCells [⟨0, 2, true⟩, ⟨4, 9, true⟩]).heightEarlier =
          JsNum.int (rhi - rlo + 1)) :=
  ⟨(pattern_width_height_bounds (Pattern.ofCells [])).1 rfl,
   (pattern_width_height_bounds
      (Pattern.ofCells [⟨0, 2, true⟩, ⟨4, 9, true⟩])).2 (by decide)⟩

section RotateLemmas

theorem ofCells_all_alive (cells : List Cell) :
    ∀ cell ∈ (Pattern.ofCells cells)._liveCells, cell.alive = true := by
  intro cell hc
  exact (List.mem_filter.mp hc).2

theorem rotate_cw_liveCells (q : Pattern) (pr pc : Int)
    (hq : ∀ cell ∈ q._liveCells, cell.alive = true) :
    (q.rotate Rotation.CLOCKWISE pr pc)._liveCells =
      q._liveCells.map (fun cell =>
        ⟨pr + (cell.column - pc), pc - (cell.row - pr), cell.alive⟩) := by
  simp only [Pattern.rotate, Pattern.ofCells, reduceIte, one_mul]
  rw [List.filter_eq_self.mpr]
  intro cell hc
  rcases List.mem_map.mp hc with ⟨d, hd, hde⟩
  rw [← hde]
  exact hq d hd

end RotateLemmas

/-- C9: one clockwise rotation maps each live cell `(r, c)` to
`(pivotRow + (c - pivotColumn), pivotColumn - (r - pivotRow))`, and for a
non-empty pattern four clockwise rotations about the same pivot restore
the original live-cell list. -/
theorem pattern_rotate_four_clockwise (cells : List Cell) (pr pc : Int)
    (h : (Pattern.ofCells cells)._liveCells ≠ []) :
    ((Pattern.ofCells cells).rotate Rotation.CLOCKWISE pr pc)._liveCells =
      (Pattern.ofCells cells)._liveCells.map (fun cell =>
        ⟨pr + (cell.column - pc), pc - (cell.row - pr), cell.alive⟩)
    ∧ (((((Pattern.ofCells cells).rotate Rotation.CLOCKWISE pr pc).rotate
          Rotation.CLOCKWISE pr pc).rotate Rotation.CLOCKWISE pr pc).rotate
          Rotation.CLOCKWISE pr pc)._liveCells =
        (Pattern.ofCells cells)._liveCells := by
  set f : Cell → Cell := fun cell =>
    ⟨pr + (cell.column - pc), pc - (cell.row - pr), cell.alive⟩ with hf
  have halive : ∀ (l : List Cell), (∀ cell ∈ l, cell.alive = true) →
      ∀ cell ∈ l.map f, cell.alive = true := by
    intro l hl cell hc
    rcases List.mem_map.mp hc with ⟨d, hd, hde⟩
    rw [← hde]
    exact hl d hd
  have h0 := ofCells_all_alive cells
  have e1 := rotate_cw_liveCells (Pattern.ofCells cells) pr pc h0
  have h1 := e1 ▸ halive _ h0
  have e2 := rotate_cw_liveCells _ pr pc h1
  have h2 := e2 ▸ halive _ h1
  have e3 := rotate_cw_liveCells _ pr pc h2
  have h3 := e3 ▸ halive _ h2
  have e4 := rotate_cw_liveCells _ pr pc h3
  refine ⟨e1, ?_⟩
  rw [e4, e3, e2, e1, List.map_map, List.map_map, List.map_map]
  have hfix : ∀ cell : Cell, f (f (f (f cell))) = cell := by
    intro cell
    cases cell with
    | mk r c a => simp only [hf]; refine Cell.mk.injEq .. ▸ ⟨?_, ?_, rfl⟩ <;> ring
  calc (Pattern.ofCells cells)._liveCells.map (f ∘ f ∘ f ∘ f)
      = (Pattern.ofCells cells)._liveCells.map id := by
        refine List.map_congr_left ?_
        intro cell hc
        exact hfix cell
    _ = (Pattern.ofCells cells)._liveCells := List.map_id _

/-- Witness for `pattern_rotate_four_clockwise` on a one-cell pattern
about the origin. -/
theorem pattern_rotate_four_clockwise_witness :
    (((((Pattern.ofCells [⟨1, 2, true⟩]).rotate Rotation.CLOCKWISE 0 0).rotate
        Rotation.CLOCKWISE 0 0).rotate Rotation.CLOCKWISE 0 0).rotate
        Rotation.CLOCKWISE 0 0)._liveCells =
      (Pattern.ofCells [⟨1, 2, true⟩])._liveCells :=
  (pattern_rotate_four_clockwise [⟨1, 2, true⟩] 0 0 (by decide)).2

/-- C6: on a timeline whose present pattern is empty and which has no
recorded future, `next()` is a no-op — it returns the very same timeline,
so the present pattern, the generation counter and the history are all
unchanged. -/
theorem timeline_next_empty_noop {P : Type} (pnext : P → P) (pempty : P → Bool)
    (t : Timeline P) (hemp : pempty t.pattern = true) (hfut : t.future = []) :
    t.next pnext pempty = t
    ∧ (t.next pnext pempty).pattern = t.pattern
    ∧ (t.next pnext pempty).generation = t.generation
    ∧ (t.next pnext pempty).past = t.past := by
  have h : t.next pnext pempty = t := by
    simp [Timeline.next, hfut, hemp]
  exact ⟨h, by rw [h], by rw [h], by rw [h]⟩

/-- Witness for `timeline_next_empty_noop` on a fresh timeline over the
spec-modelled pattern. -/
theorem timeline_next_empty_noop_witness :
    Timeline.next PatternS.next PatternS.empty (Timeline.fresh (∅ : PatternS)) =
      Timeline.fresh (∅ : PatternS) :=
  (timeline_next_empty_noop PatternS.next PatternS.empty
    (Timeline.fresh (∅ : PatternS)) (by decide) rfl).1

/-- C5: `previous()` fails exactly when `hasPrevious()` is false; a fresh
timeline has no previous pattern and `previous()` on it is the documented
error; and when a past entry exists, `previous()` restores that entry's
pattern and generation and pushes the old present onto the future, so a
subsequent `next()` returns to the old present pattern and generation. -/
theorem timeline_previous_spec {P : Type} (pnext : P → P) (pempty : P → Bool)
    (t : Timeline P) (p0 : P) :
    ((∃ e, t.previous = Except.error e) ↔ t.hasPrevious = false)
    ∧ (Timeline.fresh p0).hasPrevious = false
    ∧ (Timeline.fresh p0).previous = Except.error "No previous pattern"
    ∧ (∀ (pp : P) (pg : Int) (prest : List (P × Int)),
        t.past = (pp, pg) :: prest →
          t.previous =
            Except.ok ⟨pp, pg, prest, (t.pattern, t.generation) :: t.future⟩
          ∧ (Timeline.next pnext pempty
              ⟨pp, pg, prest, (t.pattern, t.generation) :: t.future⟩).pattern =
              t.pattern
          ∧ (Timeline.next pnext pempty
              ⟨pp, pg, prest, (t.pattern, t.generation) :: t.future⟩).generation =
              t.generation) := by
  refine ⟨?_, by simp [Timeline.fresh, Timeline.hasPrevious], rfl, ?_⟩
  · cases ht : t.past with
    | nil =>
      simp [Timeline.previous, Timeline.hasPrevious, ht]
    | cons hd tl =>
      cases hd with
      | mk pp pg =>
        simp [Timeline.previous, Timeline.hasPrevious, ht]
  · intro pp pg prest ht
    refine ⟨?_, rfl, rfl⟩
    simp [Timeline.previous, ht]

/-- Witness for `timeline_previous_spec` on a concrete timeline with one
past entry. -/
theorem timeline_previous_spec_witness :
    Timeline.previous
        (⟨(∅ : PatternS), 5, [((∅ : PatternS), 4)], []⟩ : Timeline PatternS) =
      Except.ok ⟨(∅ : PatternS), 4, [], [((∅ : PatternS), 5)]⟩ :=
  ((timeline_previous_spec PatternS.next PatternS.empty
      (⟨(∅ : PatternS), 5, [((∅ : PatternS), 4)], []⟩ : Timeline PatternS)
      (∅ : PatternS)).2.2.2 (∅ : PatternS) 4 [] rfl).1

/-- C4 (counterexample): a timeline with a previous entry and a recorded
future — reached by `fresh`, `with'`, `next`, `previous` over the
spec-modelled pattern, as the first conjunct shows — on which recording an
*empty* pattern with `with'` and then calling `next()` leaves the
generation at 0, not 1: `next()` on an empty present with no future is the
no-op branch, so the claim fails as stated for an empty new pattern. -/
theorem timeline_with_empty_pattern_counterexample :
    (Timeline.previous (Timeline.next PatternS.next PatternS.empty
        ((Timeline.fresh (∅ : PatternS)).with' {((0 : Int), (0 : Int))}))).toOption =
      some ⟨({((0 : Int), (0 : Int))} : Finset Coord), 0,
        [((∅ : Finset Coord), 0)], [((∅ : Finset Coord), 1)]⟩
    ∧ (⟨({((0 : Int), (0 : Int))} : Finset Coord), 0, [((∅ : Finset Coord), 0)],
        [((∅ : Finset Coord), 1)]⟩ : Timeline PatternS).hasPrevious = true
    ∧ (⟨({((0 : Int), (0 : Int))} : Finset Coord), 0, [((∅ : Finset Coord), 0)],
        [((∅ : Finset Coord), 1)]⟩ : Timeline PatternS).future ≠ []
    ∧ ((⟨({((0 : Int), (0 : Int))} : Finset Coord), 0, [((∅ : Finset Coord), 0)],
        [((∅ : Finset Coord), 1)]⟩ : Timeline PatternS).with'
          (∅ : PatternS)).hasPrevious = true
    ∧ ¬ (Timeline.next PatternS.next PatternS.empty
        ((⟨({((0 : Int), (0 : Int))} : Finset Coord), 0, [((∅ : Finset Coord), 0)],
          [((∅ : Finset Coord), 1)]⟩ : Timeline PatternS).with'
            (∅ : PatternS))).generation = 1
    ∧ (Timeline.next PatternS.next PatternS.empty
        ((⟨({((0 : Int), (0 : Int))} : Finset Coord), 0, [((∅ : Finset Coord), 0)],
          [((∅ : Finset Coord), 1)]⟩ : Timeline PatternS).with'
            (∅ : PatternS))).generation = 0 := by
  refine ⟨by decide, rfl, by decide, rfl, by decide, by decide⟩

/-- C4 (amended): on a timeline with a previous entry and a recorded
future, recording a *non-empty* pattern with `with'` yields a timeline at
generation 0 with `hasPrevious()` true and the recorded future discarded,
from which `next()` produces the new pattern's one-step successor at
generation 1 rather than the old future. -/
theorem timeline_with_forks_history {P : Type} (pnext : P → P) (pempty : P → Bool)
    (t : Timeline P) (newPattern : P)
    (hpast : t.hasPrevious = true) (hfut : t.future ≠ [])
    (hne : pempty newPattern = false) :
    (t.with' newPattern).generation = 0
    ∧ (t.with' newPattern).hasPrevious = true
    ∧ (t.with' newPattern).future = []
    ∧ (Timeline.next pnext pempty (t.with' newPattern)).pattern = pnext newPattern
    ∧ (Timeline.next pnext pempty (t.with' newPattern)).generation = 1 := by
  refine ⟨rfl, by simp [Timeline.with', Timeline.hasPrevious], rfl, ?_, ?_⟩ <;>
    simp [Timeline.with', Timeline.next, hne]

/-- Witness for `timeline_with_forks_history`: a concrete timeline with a
past entry and a future entry, and a non-empty replacement pattern. -/
theorem timeline_with_forks_history_witness :
    (Timeline.next PatternS.next PatternS.empty
      ((⟨(∅ : Finset Coord), 3, [((∅ : Finset Coord), 2)],
          [((∅ : Finset Coord), 4)]⟩ : Timeline PatternS).with'
        ({((5 : Int), (6 : Int))} : Finset Coord))).generation = 1 :=
  (timeline_with_forks_history PatternS.next PatternS.empty
    (⟨(∅ : Finset Coord), 3, [((∅ : Finset Coord), 2)],
      [((∅ : Finset Coord), 4)]⟩ : Timeline PatternS)
    ({((5 : Int), (6 : Int))} : Finset Coord)
    rfl (by decide) (by decide)).2.2.2.2

namespace Board

theorem step_activeDom (b : Board) : b.step.activeDom = b.changed ∪ b.nbhd := rfl

theorem step_stableDom (b : Board) :
    b.step.stableDom = (b.stableDom ∪ b.stayedAlive) \ b.nbhd := rfl

theorem step_stableVal (b : Board) (d : Coord) :
    b.step.stableVal d = (if d ∈ b.stayedAlive then true else b.stableVal d) := rfl

theorem mem_changed_iff {b : Board} {d : Coord} :
    d ∈ b.changed ↔ d ∈ b.activeDom ∧ b.nxt d ≠ b.activeVal d := by
  simp [Board.changed]

theorem mem_stayedAlive_iff {b : Board} {d : Coord} :
    d ∈ b.stayedAlive ↔
      d ∈ b.activeDom ∧ b.nxt d = b.activeVal d ∧ b.nxt d = true := by
  simp [Board.stayedAlive]

theorem mem_nbhd_iff {b : Board} {d : Coord} :
    d ∈ b.nbhd ↔ ∃ k ∈ b.changed, k ∈ neighborsOf d := by
  simp only [Board.nbhd, Finset.mem_biUnion, List.mem_toFinset]
  constructor
  · rintro ⟨k, hk, hmem⟩
    exact ⟨k, hk, mem_neighborsOf_comm.mp hmem⟩
  · rintro ⟨k, hk, hmem⟩
    exact ⟨k, hk, mem_neighborsOf_comm.mpr hmem⟩

theorem not_mem_stable_of_active {b : Board}
    (h : b.activeDom ∩ b.stableDom = ∅) {d : Coord} (hd : d ∈ b.activeDom) :
    d ∉ b.stableDom :=
  fun hs => (Finset.eq_empty_iff_forall_not_mem.mp h d)
    (Finset.mem_inter.mpr ⟨hd, hs⟩)

theorem nxt_eq (b : Board) (k : Coord) :
    b.nxt k = nextAlive (b.activeVal k) (b.liveCount k) := by
  cases k with
  | mk r c => exact cellNext_alive r c (b.activeVal (r, c)) (b.liveCount (r, c))

theorem get_of_mem_active {b : Board} {k : Coord} (h : k ∈ b.activeDom) :
    b.get k = b.activeVal k := by
  simp [Board.get, h]

/-- Closed form of `get` on the stepped board: a changed cell reads its
computed next state; any other coordinate reads the post-first-loop stable
map, dead by default. -/
theorem step_get_closed (b : Board) (d : Coord) :
    b.step.get d =
      (if d ∈ b.changed then b.nxt d
       else if d ∈ b.stableDom ∪ b.stayedAlive then
         (if d ∈ b.stayedAlive then true else b.stableVal d)
       else false) := by
  by_cases hc : d ∈ b.changed
  · have hA : d ∈ b.step.activeDom := by
      rw [step_activeDom]
      exact Finset.mem_union_left _ hc
    rw [Board.get, if_pos hA, if_pos hc]
    show (if d ∈ b.changed then b.nxt d else _) = b.nxt d
    rw [if_pos hc]
  · by_cases hn : d ∈ b.nbhd
    · have hA : d ∈ b.step.activeDom := by
        rw [step_activeDom]
        exact Finset.mem_union_right _ hn
      rw [Board.get, if_pos hA]
      show (if d ∈ b.changed then b.nxt d else _) = _
      rw [if_neg hc]
    · have hA : d ∉ b.step.activeDom := by
        rw [step_activeDom]
        simp [hc, hn]
      rw [Board.get, if_neg hA, if_neg hc]
      by_cases hs : d ∈ b.stableDom ∪ b.stayedAlive
      · have hS : d ∈ b.step.stableDom := by
          rw [step_stableDom]
          exact Finset.mem_sdiff.mpr ⟨hs, hn⟩
        rw [if_pos hS, if_pos hs, step_stableVal]
      · have hS : d ∉ b.step.stableDom := by
          rw [step_stableDom]
          simp [hs]
        rw [if_neg hS, if_neg hs]

/-- Closed form of `get` after a state-changing `set`: the written cell
reads the new value, every other coordinate is unchanged. -/
theorem set_get_closed {b : Board} {row column : Int} {v : Bool}
    (h : ¬ v = b.get (row, column)) (d : Coord) :
    (b.set row column v).get d =
      (if d = (row, column) then v else b.get d) := by
  rw [Board.set, if_neg h]
  by_cases hdx : d = (row, column)
  · simp [Board.get, hdx]
  · rw [if_neg hdx]
    by_cases hnb : d ∈ (neighborsOf (row, column)).toFinset
    · have hA : d ∈ insert (row, column) b.activeDom ∪
          (neighborsOf (row, column)).toFinset := Finset.mem_union_right _ hnb
      show Board.get ⟨_, _, _, _⟩ d = b.get d
      rw [Board.get]
      show (if d ∈ insert (row, column) b.activeDom ∪
          (neighborsOf (row, column)).toFinset then _ else _) = _
      rw [if_pos hA]
      show (if d = (row, column) then v
        else if d ∈ (neighborsOf (row, column)).toFinset then b.get d
        else b.activeVal d) = b.get d
      rw [if_neg hdx, if_pos hnb]
    · by_cases hA : d ∈ b.activeDom
      · have hA' : d ∈ insert (row, column) b.activeDom ∪
            (neighborsOf (row, column)).toFinset :=
          Finset.mem_union_left _ (Finset.mem_insert_of_mem hA)
        show Board.get ⟨_, _, _, _⟩ d = b.get d
        rw [Board.get]
        show (if d ∈ insert (row, column) b.activeDom ∪
            (neighborsOf (row, column)).toFinset then _ else _) = _
        rw [if_pos hA']
        show (if d = (row, column) then v
          else if d ∈ (neighborsOf (row, column)).toFinset then b.get d
          else b.activeVal d) = b.get d
        rw [if_neg hdx, if_neg hnb, Board.get, if_pos hA]
      · have hA' : d ∉ insert (row, column) b.activeDom ∪
            (neighborsOf (row, column)).toFinset := by
          simp [hdx, hA, hnb]
        show Board.get ⟨_, _, _, _⟩ d = b.get d
        rw [Board.get]
        show (if d ∈ insert (row, column) b.activeDom ∪
            (neighborsOf (row, column)).toFinset then _
          else if d ∈ (b.stableDom.erase (row, column)) \
            (neighborsOf (row, column)).toFinset then b.stableVal d else false) = _
        rw [if_neg hA']
        by_cases hS : d ∈ b.stableDom
        · have hS' : d ∈ (b.stableDom.erase (row, column)) \
              (neighborsOf (row, column)).toFinset :=
            Finset.mem_sdiff.mpr ⟨Finset.mem_erase.mpr ⟨hdx, hS⟩, hnb⟩
          rw [if_pos hS', Board.get, if_neg hA, if_pos hS]
        · have hS' : d ∉ (b.stableDom.erase (row, column)) \
              (neighborsOf (row, column)).toFinset := by
            simp [hS]
          rw [if_neg hS', Board.get, if_neg hA, if_neg hS]

theorem liveCount_congr {b b' : Board} {d : Coord}
    (h : ∀ j ∈ neighborsOf d, b'.get j = b.get j) :
    b'.liveCount d = b.liveCount d := by
  unfold Board.liveCount
  refine List.countP_congr ?_
  intro j hj
  rw [h j hj]

end Board

namespace Board

/-- A cell that does not change this step already carries its next
aliveness: for active cells because the step computed it equal, for
non-active cells by the invariant. -/
theorem quiescent_unchanged {b : Board} (hInv : b.Inv) {d : Coord}
    (hd : d ∉ b.changed) :
    nextAlive (b.get d) (b.liveCount d) = b.get d := by
  by_cases hA : d ∈ b.activeDom
  · have hnx : b.nxt d = b.activeVal d := by
      by_contra hne
      exact hd (mem_changed_iff.mpr ⟨hA, hne⟩)
    rw [get_of_mem_active hA]
    calc nextAlive (b.activeVal d) (b.liveCount d) = b.nxt d := (nxt_eq b d).symm
      _ = b.activeVal d := hnx
  · exact hInv.2.2 d hA

/-- Stepping leaves every unchanged coordinate's `get` aliveness intact. -/
theorem step_get_of_not_changed {b : Board} (hInv : b.Inv) {d : Coord}
    (hd : d ∉ b.changed) : b.step.get d = b.get d := by
  rw [step_get_closed, if_neg hd]
  by_cases hA : d ∈ b.activeDom
  · have hnx : b.nxt d = b.activeVal d := by
      by_contra hne
      exact hd (mem_changed_iff.mpr ⟨hA, hne⟩)
    have hS : d ∉ b.stableDom := not_mem_stable_of_active hInv.1 hA
    have hget : b.get d = b.activeVal d := get_of_mem_active hA
    by_cases hval : b.activeVal d = true
    · have hstay : d ∈ b.stayedAlive :=
        mem_stayedAlive_iff.mpr ⟨hA, hnx, by rw [hnx]; exact hval⟩
      rw [if_pos (Finset.mem_union_right _ hstay), if_pos hstay, hget, hval]
    · have hvf : b.activeVal d = false := by
        revert hval
        cases b.activeVal d <;> simp
      have hstay : d ∉ b.stayedAlive := by
        rw [mem_stayedAlive_iff]
        rintro ⟨-, heq, ht⟩
        rw [heq] at ht
        exact hval ht
      have hsu : d ∉ b.stableDom ∪ b.stayedAlive := by
        simp [hS, hstay]
      rw [if_neg hsu, hget, hvf]
  · have hstay : d ∉ b.stayedAlive := fun hs => hA (mem_stayedAlive_iff.mp hs).1
    have hget : b.get d = (if d ∈ b.stableDom then b.stableVal d else false) := by
      rw [Board.get, if_neg hA]
    by_cases hS : d ∈ b.stableDom
    · rw [if_pos (Finset.mem_union_left _ hS), if_neg hstay, hget, if_pos hS]
    · have hsu : d ∉ b.stableDom ∪ b.stayedAlive := by
        simp [hS, hstay]
      rw [if_neg hsu, hget, if_neg hS]

/-- The heart of the simulation-equivalence proof: under the invariant,
the stepped board's `get` at every coordinate is the Game of Life
successor of the current `get` and live-neighbor count. -/
theorem step_get_next {b : Board} (hInv : b.Inv) (c : Coord) :
    b.step.get c = nextAlive (b.get c) (b.liveCount c) := by
  by_cases hc : c ∈ b.changed
  · rw [step_get_closed, if_pos hc, nxt_eq,
      get_of_mem_active (mem_changed_iff.mp hc).1]
  · rw [step_get_of_not_changed hInv hc]
    exact (quiescent_unchanged hInv hc).symm

/-- Stepping preserves the invariant. -/
theorem inv_step (b : Board) (hInv : b.Inv) : b.step.Inv := by
  refine ⟨?_, ?_, ?_⟩
  · refine Finset.eq_empty_iff_forall_not_mem.mpr ?_
    intro d hd
    obtain ⟨hdA', hdS'⟩ := Finset.mem_inter.mp hd
    rw [step_activeDom] at hdA'
    rw [step_stableDom] at hdS'
    obtain ⟨hsu, hnn⟩ := Finset.mem_sdiff.mp hdS'
    rcases Finset.mem_union.mp hdA' with hch | hnb
    · rcases Finset.mem_union.mp hsu with hS | hstay
      · exact not_mem_stable_of_active hInv.1 (mem_changed_iff.mp hch).1 hS
      · exact (mem_changed_iff.mp hch).2 (mem_stayedAlive_iff.mp hstay).2.1
    · exact hnn hnb
  · intro d hd
    rw [step_stableDom] at hd
    rw [step_stableVal]
    obtain ⟨hsu, -⟩ := Finset.mem_sdiff.mp hd
    by_cases hstay : d ∈ b.stayedAlive
    · rw [if_pos hstay]
    · rw [if_neg hstay]
      rcases Finset.mem_union.mp hsu with hS | h2
      · exact hInv.2.1 d hS
      · exact absurd h2 hstay
  · intro d hdA'
    rw [step_activeDom, Finset.mem_union] at hdA'
    push_neg at hdA'
    obtain ⟨hch, hnb⟩ := hdA'
    have hnbrs : ∀ j ∈ neighborsOf d, j ∉ b.changed := by
      intro j hj hjc
      exact hnb (mem_nbhd_iff.mpr ⟨j, hjc, hj⟩)
    have hcount : b.step.liveCount d = b.liveCount d :=
      liveCount_congr (fun j hj => step_get_of_not_changed hInv (hnbrs j hj))
    rw [hcount, step_get_of_not_changed hInv hch]
    exact quiescent_unchanged hInv hch

end Board

namespace Board

theorem set_fields {b : Board} {row column : Int} {v : Bool}
    (h : ¬ v = b.get (row, column)) :
    (b.set row column v).activeDom =
        insert (row, column) b.activeDom ∪ (neighborsOf (row, column)).toFinset
    ∧ (b.set row column v).stableDom =
        (b.stableDom.erase (row, column)) \ (neighborsOf (row, column)).toFinset
    ∧ (b.set row column v).stableVal = b.stableVal := by
  rw [Board.set, if_neg h]
  exact ⟨rfl, rfl, rfl⟩

/-- Setting a cell preserves the invariant. -/
theorem inv_set (b : Board) (row column : Int) (v : Bool) (hInv : b.Inv) :
    (b.set row column v).Inv := by
  by_cases hg : v = b.get (row, column)
  · have he : b.set row column v = b := by rw [Board.set, if_pos hg]
    rw [he]
    exact hInv
  · obtain ⟨hA', hS', hsv'⟩ := set_fields hg
    refine ⟨?_, ?_, ?_⟩
    · refine Finset.eq_empty_iff_forall_not_mem.mpr ?_
      intro d hd
      obtain ⟨hdA, hdS⟩ := Finset.mem_inter.mp hd
      rw [hA'] at hdA
      rw [hS'] at hdS
      obtain ⟨hde, hdn⟩ := Finset.mem_sdiff.mp hdS
      obtain ⟨hdx, hdSb⟩ := Finset.mem_erase.mp hde
      rcases Finset.mem_union.mp hdA with hin | hnb
      · rcases Finset.mem_insert.mp hin with he | hAb
        · exact hdx he
        · exact not_mem_stable_of_active hInv.1 hAb hdSb
      · exact hdn hnb
    · intro d hd
      rw [hS'] at hd
      obtain ⟨hde, -⟩ := Finset.mem_sdiff.mp hd
      rw [hsv']
      exact hInv.2.1 d (Finset.mem_erase.mp hde).2
    · intro d hdA
      rw [hA'] at hdA
      rw [Finset.mem_union, Finset.mem_insert] at hdA
      push_neg at hdA
      obtain ⟨⟨hdx, hdAb⟩, hdn⟩ := hdA
      have hget : (b.set row column v).get d = b.get d := by
        rw [set_get_closed hg, if_neg hdx]
      have hnbrs : ∀ j ∈ neighborsOf d, (b.set row column v).get j = b.get j := by
        intro j hj
        have hjx : j ≠ (row, column) := by
          intro he
          subst he
          exact hdn (List.mem_toFinset.mpr (mem_neighborsOf_comm.mp hj))
        rw [set_get_closed hg, if_neg hjx]
      rw [hget, liveCount_congr hnbrs]
      exact hInv.2.2 d hdAb

/-- The fresh board satisfies the invariant. -/
theorem inv_empty : Board.empty.Inv := by
  refine ⟨by simp [Board.empty], by simp [Board.empty], ?_⟩
  intro c hc
  have hget : Board.empty.get c = false := by
    simp [Board.get, Board.empty]
  have hgets : ∀ j : Coord, Board.empty.get j = false := by
    intro j
    simp [Board.get, Board.empty]
  have hcount : Board.empty.liveCount c = 0 := by
    simp [Board.liveCount, hgets]
  rw [hget, hcount]
  decide

/-- Adding a pattern preserves the invariant. -/
theorem inv_add (cells : List Cell) (b : Board) (hInv : b.Inv) :
    (b.add cells).Inv := by
  induction cells generalizing b with
  | nil => exact hInv
  | cons c cs ih =>
    have he : b.add (c :: cs) =
        Board.add (if c.alive then b.set c.row c.column true else b) cs := rfl
    rw [he]
    refine ih _ ?_
    by_cases hc : c.alive
    · rw [if_pos hc]
      exact inv_set b c.row c.column true hInv
    · rw [if_neg hc]
      exact hInv

/-- Every reachable board satisfies the invariant. -/
theorem reachable_inv (b : Board) (hb : b.Reachable) : b.Inv := by
  induction hb with
  | empty => exact inv_empty
  | set b row column alive hb ih => exact inv_set b row column alive ih
  | add b cells hb ih => exact inv_add cells b ih
  | step b hb ih => exact inv_step b ih
  | clear b hb ih => exact inv_empty

/-- Under the invariant, the `liveCells()` view agrees with `get` at every
coordinate. -/
theorem mem_liveCells_iff {b : Board} (hInv : b.Inv) {c : Coord} :
    c ∈ b.liveCells ↔ b.get c = true := by
  by_cases hA : c ∈ b.activeDom
  · have hS := not_mem_stable_of_active hInv.1 hA
    simp [Board.liveCells, hA, hS, Board.get]
  · by_cases hS : c ∈ b.stableDom
    · simp [Board.liveCells, hA, hS, Board.get, hInv.2.1 c hS]
    · simp [Board.liveCells, hA, hS, Board.get]

end Board

/-- Membership in the naive step: a coordinate is live next generation iff
the rule makes it live — the candidate set (live cells and their neighbors)
already contains every cell the rule could bring or keep alive. -/
theorem naive_step_mem_iff (L : Finset Coord) (c : Coord) :
    c ∈ Naive.step L ↔
      nextAlive (decide (c ∈ L)) (Naive.liveCountOn L c) = true := by
  unfold Naive.step
  rw [Finset.mem_filter]
  constructor
  · rintro ⟨-, h⟩
    rw [← cellNext_alive c.1 c.2 (decide (c ∈ L)) (Naive.liveCountOn L c)]
    exact h
  · intro h
    refine ⟨?_, by rw [cellNext_alive]; exact h⟩
    by_cases hL : c ∈ L
    · exact Finset.mem_union_left _ hL
    · have hd : decide (c ∈ L) = false := by simp [hL]
      rw [hd] at h
      have h3 : Naive.liveCountOn L c = 3 := by
        simpa using (nextAlive_true_iff false _).mp h
      have hpos : 0 < (neighborsOf c).countP (fun j => decide (j ∈ L)) := by
        rw [show (neighborsOf c).countP (fun j => decide (j ∈ L)) =
          Naive.liveCountOn L c from rfl, h3]
        decide
      obtain ⟨j, hj, hjl⟩ := List.countP_pos_iff.mp hpos
      refine Finset.mem_union_right _ (Finset.mem_biUnion.mpr
        ⟨j, of_decide_eq_true hjl, List.mem_toFinset.mpr
          (mem_neighborsOf_comm.mp hj)⟩)

/-- Under the invariant, the naive live-neighbor count on the board's
live-cell view equals the board's own count. -/
theorem naive_liveCountOn_eq {b : Board} (hInv : b.Inv) (c : Coord) :
    Naive.liveCountOn b.liveCells c = b.liveCount c := by
  unfold Naive.liveCountOn Board.liveCount
  refine List.countP_congr ?_
  intro j hj
  simp only [decide_eq_true_eq]
  exact Board.mem_liveCells_iff hInv

/-- Under the invariant, `liveCells()` membership as a boolean is `get`. -/
theorem decide_mem_liveCells {b : Board} (hInv : b.Inv) (c : Coord) :
    decide (c ∈ b.liveCells) = b.get c := by
  by_cases hm : c ∈ b.liveCells
  · rw [decide_eq_true hm, (Board.mem_liveCells_iff hInv).mp hm]
  · rw [decide_eq_false hm]
    by_contra hne
    have : b.get c = true := by
      revert hne
      cases b.get c <;> simp
    exact hm ((Board.mem_liveCells_iff hInv).mpr this)

/-- C1: on every board state reachable through the part_010 API, one
incremental `step` produces exactly the same live-cell set as one naive
whole-live-set `step` (part_009) run on the board's live cells — at every
coordinate the resulting live/dead status is identical. -/
theorem board_step_equiv_naive (b : Board) (hb : b.Reachable) :
    b.step.liveCells = Naive.step b.liveCells := by
  have hInv := Board.reachable_inv b hb
  have hInv2 := Board.inv_step b hInv
  ext c
  rw [Board.mem_liveCells_iff hInv2, naive_step_mem_iff,
    naive_liveCountOn_eq hInv, decide_mem_liveCells hInv,
    Board.step_get_next hInv]

/-- Witness for `board_step_equiv_naive` on a blinker built by three
`set` calls. -/
theorem board_step_equiv_naive_witness :
    (((Board.empty.set 10 10 true).set 11 10 true).set 12 10 true).step.liveCells =
      Naive.step (((Board.empty.set 10 10 true).set 11 10 true).set 12 10 true).liveCells :=
  board_step_equiv_naive _
    (Board.Reachable.set _ 12 10 true
      (Board.Reachable.set _ 11 10 true
        (Board.Reachable.set Board.empty 10 10 true Board.Reachable.empty)))

/-- C3: in every board state reachable by `set`, `add` and `step` from the
empty board, the active and stable key sets are disjoint and every stable
cell is alive. -/
theorem board_reachable_invariant (b : Board) (hb : b.Reachable) :
    b.activeDom ∩ b.stableDom = ∅ ∧ ∀ c ∈ b.stableDom, b.stableVal c = true :=
  ⟨(Board.reachable_inv b hb).1, (Board.reachable_inv b hb).2.1⟩

/-- Witness for `board_reachable_invariant` on a stepped two-cell board. -/
theorem board_reachable_invariant_witness :
    ((Board.empty.set 0 0 true).set 0 1 true).step.activeDom ∩
        ((Board.empty.set 0 0 true).set 0 1 true).step.stableDom = ∅ ∧
      ∀ c ∈ ((Board.empty.set 0 0 true).set 0 1 true).step.stableDom,
        ((Board.empty.set 0 0 true).set 0 1 true).step.stableVal c = true :=
  board_reachable_invariant _
    (Board.Reachable.step _
      (Board.Reachable.set _ 0 1 true
        (Board.Reachable.set Board.empty 0 0 true Board.Reachable.empty)))

/-- C7: writing a cell with the aliveness it already has leaves the board
value — both maps — exactly unchanged, and with it the live-cell view and
every subsequent step result. -/
theorem board_set_same_value_noop (b : Board) (row column : Int) (v : Bool)
    (h : v = b.get (row, column)) :
    b.set row column v = b
    ∧ (b.set row column v).liveCells = b.liveCells
    ∧ (b.set row column v).step = b.step := by
  have he : b.set row column v = b := by rw [Board.set, if_pos h]
  exact ⟨he, by rw [he], by rw [he]⟩

/-- Witness for `board_set_same_value_noop`: re-setting an already-alive
cell alive. -/
theorem board_set_same_value_noop_witness :
    (Board.empty.set 0 0 true).set 0 0 true = Board.empty.set 0 0 true :=
  (board_set_same_value_noop (Board.empty.set 0 0 true) 0 0 true (by decide)).1
